import Mathlib

/- Verification of the Chtholly tree (run-compressed sequence) from
`src/lib.rs` of the `chtholly_tree` crate.  The Rust structure stores runs in a
`BTreeMap<usize, (usize, T)>` mapping each run's start index to its end index
and representative value, together with a logical length `len`.  We embed the
map as its sorted association list of entries `(start, stop, value)`. -/

/-- Entry of the run map: `(start, stop, value)` models the `BTreeMap` entry
`start ↦ (stop, value)` of the Rust `ChthollyTree`, a run covering the
half-open index interval `[start, stop)`. -/
abbrev Run (T : Type) := Nat × Nat × T

/-- Elements denoted by a list of runs, in ascending index order: each run
`[s, e)` contributes `e - s` copies of its value, exactly as `Iter::next`
expands a run `(l, (r, val))` into `r - l` repetitions of `val`. -/
def elems {T : Type} : List (Run T) → List T
  | [] => []
  | (s, e, v) :: rest => List.replicate (e - s) v ++ elems rest

/-- `ChthollyTree<T> { inner: BTreeMap<usize, (usize, T)>, len: usize }`;
`inner` is the map's sorted entry list. -/
structure ChthollyTree (T : Type) where
  inner : List (Run T)
  len : Nat
  deriving DecidableEq, Repr

/-- `ChthollyTree::new`. -/
def ChthollyTree.new {T : Type} : ChthollyTree T := ⟨[], 0⟩

/-- The run list partitions `[pos, stop)`: runs are consecutive, each starts
where the previous ended, the first starts at `pos` and the last ends at
`stop`; an empty list requires `pos = stop`. -/
def isPartition {T : Type} : Nat → Nat → List (Run T) → Prop
  | pos, stop, [] => pos = stop
  | pos, stop, (s, e, _) :: rest => s = pos ∧ pos < e ∧ isPartition e stop rest

def decIsPartition {T : Type} : (pos stop : Nat) → (rs : List (Run T)) →
    Decidable (isPartition pos stop rs)
  | pos, stop, [] => decidable_of_iff (pos = stop) Iff.rfl
  | pos, stop, (s, e, _) :: rest =>
    have : Decidable (isPartition e stop rest) := decIsPartition e stop rest
    decidable_of_iff (s = pos ∧ pos < e ∧ isPartition e stop rest) Iff.rfl

instance {T : Type} (pos stop : Nat) (rs : List (Run T)) :
    Decidable (isPartition pos stop rs) := decIsPartition pos stop rs

/-- The structural invariant of the tree: its runs partition `[0, len)`. -/
def TreeInv {T : Type} (t : ChthollyTree T) : Prop := isPartition 0 t.len t.inner

instance {T : Type} (t : ChthollyTree T) : Decidable (TreeInv t) :=
  inferInstanceAs (Decidable (isPartition 0 t.len t.inner))

/-- `BTreeMap::last_entry` + `entry.get_mut().0 += 1`: bump the end bound of
the last (greatest-key) entry. -/
def bumpLast {T : Type} : List (Run T) → List (Run T)
  | [] => []
  | [(s, e, v)] => [(s, e + 1, v)]
  | ru :: rest => ru :: bumpLast rest

/-- `BTreeMap::insert k (e, v)` on the sorted entry list: inserts in key
order, replacing an existing entry with the same key. -/
def insertRun {T : Type} (k e : Nat) (v : T) : List (Run T) → List (Run T)
  | [] => [(k, e, v)]
  | (s, e', v') :: rest =>
    if k < s then (k, e, v) :: (s, e', v') :: rest
    else if k = s then (k, e, v) :: rest
    else (s, e', v') :: insertRun k e v rest

/-- In-place mutation `*r = at` of the end bound of the entry with key
`key` (the first entry with that key). -/
def updateEnd {T : Type} (key newEnd : Nat) : List (Run T) → List (Run T)
  | [] => []
  | (s, e, v) :: rest =>
    if s = key then (s, newEnd, v) :: rest else (s, e, v) :: updateEnd key newEnd rest

/-- `self.inner.range_mut(..=k).next_back()`: the entry with the greatest key
`≤ k` of the sorted entry list. -/
def lookupLE {T : Type} (k : Nat) : List (Run T) → Option (Run T)
  | [] => none
  | (s, e, v) :: rest =>
    if s ≤ k then
      match lookupLE k rest with
      | none => some (s, e, v)
      | some ru => some ru
    else none

/-- `ChthollyTree::push`: if the last run's value equals `value` extend it by
one, otherwise insert a new singleton run `[len, len+1)`; `len` grows by 1. -/
def ChthollyTree.push {T : Type} [DecidableEq T] (t : ChthollyTree T) (value : T) :
    ChthollyTree T :=
  match t.inner.getLast? with
  | some (_, _, w) =>
    if w = value then ⟨bumpLast t.inner, t.len + 1⟩
    else ⟨insertRun t.len (t.len + 1) value t.inner, t.len + 1⟩
  | none => ⟨insertRun t.len (t.len + 1) value t.inner, t.len + 1⟩

/-- Body of `ChthollyTree::split` for `at ≠ 0`: find the run `(s, e, v)` with
the greatest start `≤ at`; when `at ≠ e`, shrink it to `[s, at)` and insert a
run `[at, e)` with a clone of its value.  The `none` branch of the lookup
models the `unwrap` that panics on an empty lookup result; it is unreachable
whenever the tree satisfies the invariant and `0 < at ≤ len`. -/
def splitInner {T : Type} (k : Nat) (rs : List (Run T)) : List (Run T) :=
  match lookupLE k rs with
  | none => rs
  | some (s, e, v) => if k ≠ e then insertRun k e v (updateEnd s k rs) else rs

/-- `ChthollyTree::split` as compiled in release mode: the
`debug_assert!(at < self.len())` is compiled out, so the function proceeds for
any `at` (see the out-of-range corruption theorem below). -/
def ChthollyTree.split {T : Type} (t : ChthollyTree T) (k : Nat) : ChthollyTree T :=
  if k = 0 then t else ⟨splitInner k t.inner, t.len⟩

/-- The Rust range argument: one `std::ops::Bound<usize>` for each side. -/
inductive Bound where
  | included : Nat → Bound
  | excluded : Nat → Bound
  | unbounded : Bound
  deriving DecidableEq, Repr

/-- A `RangeBounds<usize>` value, reduced to its two bounds. -/
structure RangeArg where
  start : Bound
  stop : Bound
  deriving DecidableEq, Repr

/-- `usize::checked_sub`. -/
def checked_sub (a b : Nat) : Option Nat := if b ≤ a then some (a - b) else none

/-- The bound computation at the top of `ChthollyTree::split_range`: the start
bound gives `l` (`Included l ↦ l`, `Excluded l ↦ l + 1`, `Unbounded ↦ 0`), the
end bound gives `r` (`Included r ↦ r.checked_sub(1)` — returning `none` on
underflow — `Excluded r ↦ r`, `Unbounded ↦ len`). -/
def boundsOf (len : Nat) (range : RangeArg) : Option (Nat × Nat) :=
  let l := match range.start with
    | Bound.included l => l
    | Bound.excluded l => l + 1
    | Bound.unbounded => 0
  match range.stop with
  | Bound.included r =>
    match checked_sub r 1 with
    | some r => some (l, r)
    | none => none
  | Bound.excluded r => some (l, r)
  | Bound.unbounded => some (l, len)

/-- `ChthollyTree::split_range`: compute `(l, r)`; return `None` (leaving the
tree untouched) when the end bound underflows or `l ≥ r` or `r > len`;
otherwise perform `split(l)` then `split(r)` and return `Some (l, r)` together
with the updated tree. -/
def ChthollyTree.split_range {T : Type} (t : ChthollyTree T) (range : RangeArg) :
    Option ((Nat × Nat) × ChthollyTree T) :=
  match boundsOf t.len range with
  | none => none
  | some (l, r) =>
    if l ≥ r ∨ r > t.len then none
    else some ((l, r), (t.split l).split r)

/-- `ChthollyTree::assign`: after `split_range`, remove every entry whose key
lies in `l + 1 .. r`, then insert the single run `[l, r)` with value `val`. -/
def ChthollyTree.assign {T : Type} (t : ChthollyTree T) (val : T) (range : RangeArg) :
    ChthollyTree T :=
  match t.split_range range with
  | none => t
  | some ((l, r), t') =>
    ⟨insertRun l r val (t'.inner.filter fun ru => decide (¬(l + 1 ≤ ru.1 ∧ ru.1 < r))),
      t'.len⟩

/-- `ChthollyTree::map`: apply `f` to every run's representative value. -/
def ChthollyTree.map {T : Type} (t : ChthollyTree T) (f : T → T) : ChthollyTree T :=
  ⟨t.inner.map (fun ru => (ru.1, ru.2.1, f ru.2.2)), t.len⟩

/-- `ChthollyTree::fold`: fold `f acc (r - l) val` over the runs in ascending
key order. -/
def ChthollyTree.fold {T Acc : Type} (t : ChthollyTree T) (init : Acc)
    (f : Acc → Nat → T → Acc) : Acc :=
  t.inner.foldl (fun acc ru => f acc (ru.2.1 - ru.1) ru.2.2) init

/-- `ChthollyTree::map_range`: after `split_range`, apply `f` to the value of
every run whose key lies in `l .. r`. -/
def ChthollyTree.map_range {T : Type} (t : ChthollyTree T) (f : T → T)
    (range : RangeArg) : ChthollyTree T :=
  match t.split_range range with
  | none => t
  | some ((l, r), t') =>
    ⟨t'.inner.map (fun ru =>
        if l ≤ ru.1 ∧ ru.1 < r then (ru.1, ru.2.1, f ru.2.2) else ru),
      t'.len⟩

/-- `ChthollyTree::fold_range`: after `split_range`, fold over the runs whose
key lies in `l .. r`; on a `None` range return `init`.  The Rust method
mutates `self` through `split_range`, so the model returns the accumulator
together with the resulting tree. -/
def ChthollyTree.fold_range {T Acc : Type} (t : ChthollyTree T) (init : Acc)
    (f : Acc → Nat → T → Acc) (range : RangeArg) : Acc × ChthollyTree T :=
  match t.split_range range with
  | none => (init, t)
  | some ((l, r), t') =>
    ((t'.inner.filter fun ru => decide (l ≤ ru.1 ∧ ru.1 < r)).foldl
        (fun acc ru => f acc (ru.2.1 - ru.1) ru.2.2) init,
      t')

/-- `ChthollyTree::sum` at element type `i64`/`Int`: `fold` accumulating
`acc + repeat * val`; the `T::from(repeat).unwrap()` length-to-value cast is
the `Nat → Int` coercion, which never fails on `Int`. -/
def ChthollyTree.sum (t : ChthollyTree Int) : Int :=
  t.fold 0 (fun acc rep val => acc + (rep : Int) * val)

/-- `ChthollyTree::range_sum` at element type `Int` (returns the accumulator
and, since the Rust method takes `&mut self`, the resulting tree). -/
def ChthollyTree.range_sum (t : ChthollyTree Int) (range : RangeArg) :
    Int × ChthollyTree Int :=
  t.fold_range 0 (fun acc rep val => acc + (rep : Int) * val) range

/-- The element sequence produced by `ChthollyTree::iter`: each run expanded
into `end - start` copies of its value, in ascending index order. -/
def ChthollyTree.iter {T : Type} (t : ChthollyTree T) : List T := elems t.inner

/-- `FromIterator::from_iter`: start from `new` and `push` every element. -/
def ChthollyTree.from_iter {T : Type} [DecidableEq T] (xs : List T) : ChthollyTree T :=
  xs.foldl ChthollyTree.push ChthollyTree.new

/-- `k` is a run boundary of `t`: either `0` or the start of a stored run. -/
def isBoundary {T : Type} (t : ChthollyTree T) (k : Nat) : Prop :=
  k = 0 ∨ ∃ ru ∈ t.inner, ru.1 = k

instance {T : Type} (t : ChthollyTree T) (k : Nat) : Decidable (isBoundary t k) :=
  inferInstanceAs (Decidable (_ ∨ _))

/-- One public mutating operation of the tree (the read-only `fold` included
for completeness; it takes `&self` and leaves the tree unchanged). -/
inductive Op (T : Type) where
  | pushOp : T → Op T
  | splitOp : Nat → Op T
  | assignOp : T → RangeArg → Op T
  | mapOp : (T → T) → Op T
  | mapRangeOp : (T → T) → RangeArg → Op T
  | foldOp : Op T
  | foldRangeOp : RangeArg → Op T

/-- Apply one operation.  `splitOp` is applied only at a valid index
(`k < len`), matching the operation's contract; `foldRangeOp` runs
`fold_range` with a representative folding function — the tree component of
`fold_range` does not depend on the accumulator or the function. -/
def applyOp {T : Type} [DecidableEq T] (t : ChthollyTree T) : Op T → ChthollyTree T
  | Op.pushOp v => t.push v
  | Op.splitOp k => if k < t.len then t.split k else t
  | Op.assignOp v rg => t.assign v rg
  | Op.mapOp f => t.map f
  | Op.mapRangeOp f rg => t.map_range f rg
  | Op.foldOp => t
  | Op.foldRangeOp rg => (t.fold_range 0 (fun acc n _ => acc + n) rg).2

/-- Run a sequence of public operations starting from the empty tree. -/
def runOps {T : Type} [DecidableEq T] (ops : List (Op T)) : ChthollyTree T :=
  ops.foldl applyOp ChthollyTree.new

/- Sanity checks mirroring the crate's unit tests. -/

example : (ChthollyTree.from_iter ([1, 1, 2, 3, 4, 5, 5, 5, 5] : List Int)).inner =
    [(0, 2, 1), (2, 3, 2), (3, 4, 3), (4, 5, 4), (5, 9, 5)] := by decide

example : (ChthollyTree.from_iter ([-1, 2, 2, 3, 0, 0, 0, -4, -4, 10, 10, 12] : List Int)).iter =
    [-1, 2, 2, 3, 0, 0, 0, -4, -4, 10, 10, 12] := by decide

example :
    ((ChthollyTree.from_iter ([1, 1, 2, 3, 4, 5, 5, 5, 5] : List Int)).split_range
        ⟨Bound.included 6, Bound.excluded 8⟩).map (fun p => p.2.inner) =
    some [(0, 2, 1), (2, 3, 2), (3, 4, 3), (4, 5, 4), (5, 6, 5), (6, 8, 5), (8, 9, 5)] := by
  decide

example : ((ChthollyTree.from_iter ([1, 1, 2, 3, 4, 4, 4, 5, 7, 8] : List Int)).assign 10
    ⟨Bound.included 3, Bound.excluded 6⟩).iter = [1, 1, 2, 10, 10, 10, 4, 5, 7, 8] := by decide

example : (ChthollyTree.from_iter ([1, 1, 2, 3, 4, 4, 4, 5, 7, 8] : List Int)).sum = 39 := by
  decide

example : ((ChthollyTree.from_iter ([1, 1, 2, 3, 4, 4, 4, 5, 7, 8] : List Int)).range_sum
    ⟨Bound.included 3, Bound.excluded 6⟩).1 = 11 := by decide

/- Basic facts about `isPartition` and `elems`. -/

theorem isPartition_le {T : Type} :
    ∀ {rs : List (Run T)} {pos stop : Nat}, isPartition pos stop rs → pos ≤ stop
  | [], pos, stop, h => Nat.le_of_eq h
  | (s, e, v) :: rest, pos, stop, h => by
    obtain ⟨hs, hlt, hrest⟩ := h
    exact Nat.le_trans (Nat.le_of_lt hlt) (isPartition_le hrest)

theorem isPartition_append {T : Type} {B : List (Run T)} {mid stop : Nat} :
    ∀ {A : List (Run T)} {pos : Nat}, isPartition pos mid A → isPartition mid stop B →
      isPartition pos stop (A ++ B)
  | [], pos, hA, hB => by
    simp only [isPartition] at hA
    simpa [hA] using hB
  | (s, e, v) :: rest, pos, hA, hB => by
    obtain ⟨hs, hlt, hrest⟩ := hA
    exact ⟨hs, hlt, isPartition_append hrest hB⟩

theorem isPartition_key_ge {T : Type} :
    ∀ {rs : List (Run T)} {pos stop : Nat}, isPartition pos stop rs →
      ∀ ru ∈ rs, pos ≤ ru.1
  | [], _, _, _, ru, hru => absurd hru (List.not_mem_nil ru)
  | (s, e, v) :: rest, pos, stop, h, ru, hru => by
    obtain ⟨hs, hlt, hrest⟩ := h
    rcases List.mem_cons.mp hru with h1 | h1
    · subst h1; exact Nat.le_of_eq hs.symm
    · exact Nat.le_trans (Nat.le_of_lt hlt) (isPartition_key_ge hrest ru h1)

theorem isPartition_end_le {T : Type} :
    ∀ {rs : List (Run T)} {pos stop : Nat}, isPartition pos stop rs →
      ∀ ru ∈ rs, ru.1 < ru.2.1 ∧ ru.2.1 ≤ stop
  | [], _, _, _, ru, hru => absurd hru (List.not_mem_nil ru)
  | (s, e, v) :: rest, pos, stop, h, ru, hru => by
    obtain ⟨hs, hlt, hrest⟩ := h
    rcases List.mem_cons.mp hru with h1 | h1
    · subst h1
      exact ⟨hs ▸ hlt, isPartition_le hrest⟩
    · exact isPartition_end_le hrest ru h1

theorem isPartition_key_lt {T : Type} {rs : List (Run T)} {pos stop : Nat}
    (h : isPartition pos stop rs) : ∀ ru ∈ rs, ru.1 < stop := fun ru hru =>
  Nat.lt_of_lt_of_le (isPartition_end_le h ru hru).1 (isPartition_end_le h ru hru).2

theorem elems_append {T : Type} (A B : List (Run T)) :
    elems (A ++ B) = elems A ++ elems B := by
  induction A with
  | nil => rfl
  | cons ru rest ih =>
    obtain ⟨s, e, v⟩ := ru
    simp [elems, ih]

theorem elems_length {T : Type} :
    ∀ {rs : List (Run T)} {pos stop : Nat}, isPartition pos stop rs →
      (elems rs).length = stop - pos
  | [], pos, stop, h => by simp only [isPartition] at h; simp [elems, h]
  | (s, e, v) :: rest, pos, stop, h => by
    obtain ⟨hs, hlt, hrest⟩ := h
    have he : e ≤ stop := isPartition_le hrest
    simp only [elems, List.length_append, List.length_replicate, elems_length hrest]
    omega

/- Facts about `lookupLE`. -/

theorem lookupLE_none_of_lt {T : Type} {rs : List (Run T)} {pos stop k : Nat}
    (h : isPartition pos stop rs) (hk : k < pos) : lookupLE k rs = none := by
  cases rs with
  | nil => rfl
  | cons ru rest =>
    obtain ⟨hs, hlt, hrest⟩ := h
    obtain ⟨s, e, v⟩ := ru
    simp only at hs
    simp [lookupLE, hs, Nat.not_le.mpr hk]

theorem lookupLE_cons_of_some {T : Type} {s₀ e₀ : Nat} {v₀ : T} {rest : List (Run T)}
    {k : Nat} {ru : Run T} (h : s₀ ≤ k) (hl : lookupLE k rest = some ru) :
    lookupLE k ((s₀, e₀, v₀) :: rest) = some ru := by
  simp [lookupLE, h, hl]

theorem lookupLE_mem {T : Type} {rs : List (Run T)} :
    ∀ {k : Nat} {ru : Run T}, lookupLE k rs = some ru → ru ∈ rs := by
  induction rs with
  | nil => intro k ru h; simp [lookupLE] at h
  | cons head rest ih =>
    intro k ru h
    obtain ⟨s, e, v⟩ := head
    simp only [lookupLE] at h
    split at h
    · cases hrec : lookupLE k rest with
      | none =>
        rw [hrec] at h
        simp only [Option.some.injEq] at h
        subst h
        exact List.mem_cons_self _ _
      | some ru' =>
        rw [hrec] at h
        simp only [Option.some.injEq] at h
        subst h
        exact List.mem_cons_of_mem _ (ih hrec)
    · exact absurd h (by simp)

/-- On a partition of `[pos, stop)` with `pos ≤ k < stop`, `lookupLE k` finds
exactly the run containing index `k`, and the list decomposes around it. -/
theorem lookupLE_decomp {T : Type} :
    ∀ {rs : List (Run T)} {pos stop k : Nat}, isPartition pos stop rs →
      pos ≤ k → k < stop →
      ∃ A s e v B, rs = A ++ (s, e, v) :: B ∧ lookupLE k rs = some (s, e, v) ∧
        isPartition pos s A ∧ s ≤ k ∧ k < e ∧ isPartition e stop B
  | [], pos, stop, k, h, hpk, hks => by
    simp only [isPartition] at h
    omega
  | (s₀, e₀, v₀) :: rest, pos, stop, k, h, hpk, hks => by
    obtain ⟨hs, hlt, hrest⟩ := h
    subst hs
    by_cases hke : k < e₀
    · refine ⟨[], s₀, e₀, v₀, rest, rfl, ?_, rfl, hpk, hke, hrest⟩
      simp [lookupLE, hpk, lookupLE_none_of_lt hrest hke]
    · have he₀k : e₀ ≤ k := Nat.le_of_not_lt hke
      obtain ⟨A', s, e, v, B, hdecomp, hlook, hA', hsk, hke', hB⟩ :=
        lookupLE_decomp hrest he₀k hks
      refine ⟨(s₀, e₀, v₀) :: A', s, e, v, B, by rw [hdecomp, List.cons_append], ?_,
        ⟨rfl, hlt, hA'⟩, hsk, hke', hB⟩
      exact lookupLE_cons_of_some hpk hlook

/-- On a nonempty partition of `[pos, stop)`, `lookupLE stop` finds the last
run, whose end is `stop`. -/
theorem lookupLE_last {T : Type} :
    ∀ {rs : List (Run T)} {pos stop : Nat}, isPartition pos stop rs → rs ≠ [] →
      ∃ s v, lookupLE stop rs = some (s, stop, v)
  | [], pos, stop, _, hne => absurd rfl hne
  | [(s, e, v)], pos, stop, h, _ => by
    obtain ⟨hs, hlt, hrest⟩ := h
    simp only [isPartition] at hrest
    subst hrest
    exact ⟨s, v, by simp [lookupLE, Nat.le_of_lt (hs ▸ hlt)]⟩
  | (s₀, e₀, v₀) :: ru :: rest, pos, stop, h, _ => by
    obtain ⟨hs, hlt, hrest⟩ := h
    obtain ⟨s, v, hlook⟩ := lookupLE_last hrest (by simp)
    have hs₀ : s₀ ≤ stop := by
      have := isPartition_le hrest
      omega
    exact ⟨s, v, lookupLE_cons_of_some hs₀ hlook⟩

/- Facts about `updateEnd`, `insertRun` and `List.filter`. -/

theorem updateEnd_append {T : Type} {key newEnd : Nat} {B : List (Run T)} :
    ∀ {A : List (Run T)}, (∀ ru ∈ A, ru.1 ≠ key) →
      updateEnd key newEnd (A ++ B) = A ++ updateEnd key newEnd B
  | [], _ => rfl
  | (s, e, v) :: rest, h => by
    have hs : s ≠ key := h (s, e, v) (List.mem_cons_self _ _)
    simp only [List.cons_append, updateEnd, if_neg hs, List.append_eq]
    rw [updateEnd_append (fun ru hru => h ru (List.mem_cons_of_mem _ hru))]

theorem updateEnd_cons_eq {T : Type} {key newEnd s e : Nat} {v : T} {B : List (Run T)}
    (h : s = key) : updateEnd key newEnd ((s, e, v) :: B) = (s, newEnd, v) :: B := by
  simp [updateEnd, h]

theorem insertRun_append {T : Type} {k e : Nat} {v : T} {B : List (Run T)} :
    ∀ {A : List (Run T)}, (∀ ru ∈ A, ru.1 < k) →
      insertRun k e v (A ++ B) = A ++ insertRun k e v B
  | [], _ => rfl
  | (s, e', v') :: rest, h => by
    have hs : s < k := h (s, e', v') (List.mem_cons_self _ _)
    simp only [List.cons_append, insertRun, if_neg (Nat.not_lt.mpr (Nat.le_of_lt hs)),
      if_neg (Nat.ne_of_gt hs), List.append_eq]
    rw [insertRun_append (fun ru hru => h ru (List.mem_cons_of_mem _ hru))]

theorem insertRun_cons_eq {T : Type} {k e e' : Nat} {v v' : T} {B : List (Run T)} :
    insertRun k e v ((k, e', v') :: B) = (k, e, v) :: B := by
  simp [insertRun]

theorem insertRun_front {T : Type} {k e : Nat} {v : T} {B : List (Run T)} {p stop : Nat}
    (hB : isPartition p stop B) (hk : k < p) : insertRun k e v B = (k, e, v) :: B := by
  cases B with
  | nil => rfl
  | cons ru rest =>
    obtain ⟨s, e', v'⟩ := ru
    obtain ⟨hs, _, _⟩ := hB
    simp [insertRun, hs ▸ hk]

theorem insertRun_concat {T : Type} {e' : Nat} {v' : T} :
    ∀ {rs : List (Run T)} {pos stop : Nat}, isPartition pos stop rs →
      insertRun stop e' v' rs = rs ++ [(stop, e', v')]
  | [], pos, stop, _ => rfl
  | (s, e, v) :: rest, pos, stop, h => by
    obtain ⟨hs, hlt, hrest⟩ := h
    have hlt' : s < stop := Nat.lt_of_lt_of_le (hs ▸ hlt) (isPartition_le hrest)
    simp only [insertRun, if_neg (Nat.not_lt.mpr (Nat.le_of_lt hlt')),
      if_neg (Nat.ne_of_gt hlt'), List.cons_append]
    rw [insertRun_concat hrest]

theorem filter_all_true {α : Type} {p : α → Bool} :
    ∀ {xs : List α}, (∀ a ∈ xs, p a = true) → xs.filter p = xs
  | [], _ => rfl
  | x :: rest, h => by
    simp only [List.filter_cons, h x (List.mem_cons_self _ _), if_pos]
    rw [filter_all_true (fun a ha => h a (List.mem_cons_of_mem _ ha))]

theorem filter_all_false {α : Type} {p : α → Bool} :
    ∀ {xs : List α}, (∀ a ∈ xs, p a = false) → xs.filter p = []
  | [], _ => rfl
  | x :: rest, h => by
    have hx := h x (List.mem_cons_self _ _)
    have hrest := filter_all_false (fun a ha => h a (List.mem_cons_of_mem _ ha))
    simp [List.filter_cons, hx, hrest]

theorem filter_cons_true {α : Type} (p : α → Bool) (a : α) (xs : List α)
    (h : p a = true) : (a :: xs).filter p = a :: xs.filter p := by
  simp [List.filter_cons, h]

/- The central decomposition: `splitInner k` turns a partition of
`[pos, stop)` into a partition with a boundary at `k`, preserving the element
sequence. -/

/-- After `splitInner k`, the run list decomposes as `X ++ Y` where `X`
partitions `[pos, k)`, `Y` partitions `[k, stop)`, and the concatenation of
their elements is the original element sequence. -/
theorem splitInner_decomp {T : Type} {rs : List (Run T)} {pos stop k : Nat}
    (h : isPartition pos stop rs) (hpk : pos < k) (hks : k ≤ stop) :
    ∃ X Y, splitInner k rs = X ++ Y ∧ isPartition pos k X ∧ isPartition k stop Y ∧
      elems X ++ elems Y = elems rs := by
  rcases Nat.lt_or_ge k stop with hklt | hkge
  · obtain ⟨A, s, e, v, B, hdecomp, hlook, hA, hsk, hke, hB⟩ :=
      lookupLE_decomp h (Nat.le_of_lt hpk) hklt
    have hAkeys : ∀ ru ∈ A, ru.1 < s := isPartition_key_lt hA
    rcases Nat.eq_or_lt_of_le hsk with hseq | hslt
    · -- `k` is already a key: the update/insert pair rewrites the run in place.
      subst hseq
      have hupd : updateEnd s s rs = A ++ (s, s, v) :: B := by
        rw [hdecomp, updateEnd_append (fun ru hru => Nat.ne_of_lt (hAkeys ru hru)),
          updateEnd_cons_eq rfl]
      have hins : insertRun s e v (A ++ (s, s, v) :: B) = A ++ (s, e, v) :: B := by
        rw [insertRun_append (fun ru hru => hAkeys ru hru), insertRun_cons_eq]
      refine ⟨A, (s, e, v) :: B, ?_, hA, ⟨rfl, hke, hB⟩, by rw [hdecomp, elems_append]⟩
      simp only [splitInner, hlook]
      rw [if_pos (show s ≠ e from Nat.ne_of_lt hke), hupd, hins]
    · -- `k` lies strictly inside the run `(s, e, v)`: it is split in two.
      have hupd : updateEnd s k rs = A ++ (s, k, v) :: B := by
        rw [hdecomp, updateEnd_append (fun ru hru => Nat.ne_of_lt (hAkeys ru hru)),
          updateEnd_cons_eq rfl]
      have hins : insertRun k e v (A ++ (s, k, v) :: B) =
          A ++ (s, k, v) :: (k, e, v) :: B := by
        rw [show A ++ (s, k, v) :: B = (A ++ [(s, k, v)]) ++ B by simp,
          insertRun_append (by
            intro ru hru
            rcases List.mem_append.mp hru with h1 | h1
            · exact Nat.lt_trans (hAkeys ru h1) hslt
            · simp at h1; subst h1; exact hslt),
          insertRun_front hB hke]
        simp
      refine ⟨A ++ [(s, k, v)], (k, e, v) :: B, ?_, ?_, ⟨rfl, hke, hB⟩, ?_⟩
      · simp only [splitInner, hlook]
        rw [if_pos (by exact Nat.ne_of_lt hke), hupd, hins]
        simp
      · exact isPartition_append hA ⟨rfl, hslt, rfl⟩
      · rw [hdecomp, elems_append, elems_append]
        simp only [elems, List.append_nil]
        rw [List.append_assoc]
        congr 1
        rw [← List.append_assoc]
        congr 1
        rw [← List.replicate_add]
        congr 1
        omega
  · -- `k = stop`: the lookup finds the last run, whose end is `stop`; no-op.
    have hkeq : k = stop := Nat.le_antisymm hks hkge
    subst hkeq
    have hne : rs ≠ [] := by
      cases rs with
      | nil => simp only [isPartition] at h; omega
      | cons a b => simp
    obtain ⟨s, v, hlook⟩ := lookupLE_last h hne
    refine ⟨rs, [], by simp [splitInner, hlook], h, rfl, by simp [elems]⟩

theorem lookupLE_cons_isSome {T : Type} {s₀ e₀ : Nat} {v₀ : T} {B : List (Run T)}
    {k : Nat} (h : s₀ ≤ k) : ∃ ru, lookupLE k ((s₀, e₀, v₀) :: B) = some ru := by
  simp only [lookupLE, if_pos h]
  cases lookupLE k B <;> simp

theorem lookupLE_append_some {T : Type} {k : Nat} {ru : Run T} {B : List (Run T)} :
    ∀ {A : List (Run T)}, (∀ a ∈ A, a.1 ≤ k) → lookupLE k B = some ru →
      lookupLE k (A ++ B) = some ru
  | [], _, h => h
  | (s, e, v) :: rest, hA, h => by
    have hrec := lookupLE_append_some (fun a ha => hA a (List.mem_cons_of_mem _ ha)) h
    simpa [List.cons_append] using
      lookupLE_cons_of_some (hA (s, e, v) (List.mem_cons_self _ _)) hrec

/-- `splitInner k` does not touch the runs of a prefix that partitions an
interval entirely below `k`. -/
theorem splitInner_append {T : Type} {A B : List (Run T)} {pos mid stop k : Nat}
    (hA : isPartition pos mid A) (hB : isPartition mid stop B) (hmk : mid < k)
    (hks : k ≤ stop) : splitInner k (A ++ B) = A ++ splitInner k B := by
  have hAkeys : ∀ ru ∈ A, ru.1 < mid := isPartition_key_lt hA
  cases B with
  | nil => simp only [isPartition] at hB; omega
  | cons b B' =>
    obtain ⟨sb, eb, vb⟩ := b
    have hsb : sb ≤ k := by
      obtain ⟨hsb, _, _⟩ := hB
      omega
    obtain ⟨ru, hru⟩ := @lookupLE_cons_isSome T sb eb vb B' k hsb
    obtain ⟨s, e, v⟩ := ru
    have hlookAB : lookupLE k (A ++ (sb, eb, vb) :: B') = some (s, e, v) :=
      lookupLE_append_some
        (fun a ha => Nat.le_of_lt (Nat.lt_of_lt_of_le (hAkeys a ha) (Nat.le_of_lt hmk)))
        hru
    have hs_ge : mid ≤ s :=
      isPartition_key_ge hB (s, e, v) (lookupLE_mem hru)
    by_cases hke : k = e
    · simp only [splitInner, hru, hlookAB]
      rw [if_neg (show ¬k ≠ e by omega), if_neg (show ¬k ≠ e by omega)]
    · simp only [splitInner, hru, hlookAB]
      rw [if_pos hke, if_pos hke,
        updateEnd_append
          (fun a ha => Nat.ne_of_lt (Nat.lt_of_lt_of_le (hAkeys a ha) hs_ge)),
        insertRun_append (fun a ha => Nat.lt_trans (hAkeys a ha) hmk)]

/- Tree-level facts about `split`. -/

theorem split_len {T : Type} (t : ChthollyTree T) (k : Nat) :
    (t.split k).len = t.len := by
  unfold ChthollyTree.split
  split <;> rfl

theorem split_inner_of_ne {T : Type} {t : ChthollyTree T} {k : Nat} (hk : k ≠ 0) :
    (t.split k).inner = splitInner k t.inner := by
  unfold ChthollyTree.split
  rw [if_neg hk]

/-- `split` at any `k ≤ len` refines the partition into a part below `k` and a
part above `k`, preserving the element sequence. -/
theorem split_parts {T : Type} {t : ChthollyTree T} {k : Nat} (h : TreeInv t)
    (hk : k ≤ t.len) :
    ∃ X Y, (t.split k).inner = X ++ Y ∧ isPartition 0 k X ∧ isPartition k t.len Y ∧
      elems X ++ elems Y = elems t.inner := by
  by_cases hk0 : k = 0
  · subst hk0
    exact ⟨[], t.inner, by simp [ChthollyTree.split], rfl, h, by simp [elems]⟩
  · obtain ⟨X, Y, hXY, hX, hY, helems⟩ :=
      splitInner_decomp h (Nat.pos_of_ne_zero hk0) hk
    exact ⟨X, Y, by simp [ChthollyTree.split, hk0, hXY], hX, hY, helems⟩

theorem split_TreeInv {T : Type} {t : ChthollyTree T} {k : Nat} (h : TreeInv t)
    (hk : k ≤ t.len) : TreeInv (t.split k) := by
  obtain ⟨X, Y, hXY, hX, hY, _⟩ := split_parts h hk
  unfold TreeInv
  rw [split_len, hXY]
  exact isPartition_append hX hY

theorem split_iter {T : Type} {t : ChthollyTree T} {k : Nat} (h : TreeInv t)
    (hk : k ≤ t.len) : (t.split k).iter = t.iter := by
  obtain ⟨X, Y, hXY, _, _, helems⟩ := split_parts h hk
  unfold ChthollyTree.iter
  rw [hXY, elems_append, helems]

/- Tree-level facts about `split_range`. -/

/-- When `split_range` succeeds with bounds `(l, r)`, then `l < r ≤ len`, the
length is preserved, and the resulting run list decomposes into partitions of
`[0, l)`, `[l, r)` and `[r, len)` whose elements concatenate to the original
element sequence. -/
theorem split_range_parts {T : Type} {t : ChthollyTree T} {rg : RangeArg}
    {l r : Nat} {t' : ChthollyTree T} (h : TreeInv t)
    (hsr : t.split_range rg = some ((l, r), t')) :
    l < r ∧ r ≤ t.len ∧ t'.len = t.len ∧
      ∃ X Y Z, t'.inner = X ++ (Y ++ Z) ∧ isPartition 0 l X ∧ isPartition l r Y ∧
        isPartition r t.len Z ∧ elems X ++ (elems Y ++ elems Z) = elems t.inner := by
  simp only [ChthollyTree.split_range] at hsr
  split at hsr
  · exact absurd hsr (by simp)
  · rename_i l0 r0 heq
    split at hsr
    · exact absurd hsr (by simp)
    · rename_i hcond
      simp only [Option.some.injEq, Prod.mk.injEq] at hsr
      obtain ⟨⟨hl, hr⟩, ht'⟩ := hsr
      subst hl; subst hr
      have hlr : l0 < r0 := by omega
      have hrle : r0 ≤ t.len := by omega
      have hlle : l0 ≤ t.len := Nat.le_trans (Nat.le_of_lt hlr) hrle
      obtain ⟨X, B, hXB, hX, hB, hel1⟩ := split_parts h hlle
      have hr0 : r0 ≠ 0 := by omega
      obtain ⟨Y, Z, hYZ, hY, hZ, hel2⟩ := splitInner_decomp hB hlr hrle
      have hinner : ((t.split l0).split r0).inner = X ++ splitInner r0 B := by
        rw [split_inner_of_ne hr0, hXB]
        exact splitInner_append hX hB hlr hrle
      refine ⟨hlr, hrle, ?_, X, Y, Z, ?_, hX, hY, hZ, ?_⟩
      · rw [← ht', split_len, split_len]
      · rw [← ht', hinner, hYZ]
      · rw [hel2, hel1]

/- Facts about `push` and bulk construction. -/

theorem last_decomp {T : Type} :
    ∀ {rs : List (Run T)} {pos stop : Nat}, isPartition pos stop rs → rs ≠ [] →
      ∃ F s e w, rs = F ++ [(s, e, w)] ∧ isPartition pos s F ∧ s < e ∧ e = stop
  | [], _, _, _, hne => absurd rfl hne
  | [(s, e, w)], pos, stop, h, _ => by
    obtain ⟨hs, hlt, hrest⟩ := h
    simp only [isPartition] at hrest
    exact ⟨[], s, e, w, by simp, hs.symm, by omega, hrest⟩
  | (s₀, e₀, v₀) :: ru :: rest, pos, stop, h, _ => by
    obtain ⟨hs, hlt, hrest⟩ := h
    obtain ⟨F, s, e, w, hF, hPF, hse, hestop⟩ := last_decomp hrest (by simp)
    exact ⟨(s₀, e₀, v₀) :: F, s, e, w, by rw [hF, List.cons_append], ⟨hs, hlt, hPF⟩,
      hse, hestop⟩

theorem bumpLast_concat {T : Type} (s e : Nat) (w : T) (F : List (Run T)) :
    bumpLast (F ++ [(s, e, w)]) = F ++ [(s, e + 1, w)] := by
  induction F with
  | nil => rfl
  | cons x F' ih =>
    cases F' with
    | nil => rfl
    | cons y F'' =>
      show x :: bumpLast ((y :: F'') ++ [(s, e, w)]) = x :: ((y :: F'') ++ [(s, e + 1, w)])
      rw [ih]

/-- `push` preserves the invariant, increments `len`, and appends its argument
to the element sequence. -/
theorem push_spec {T : Type} [DecidableEq T] {t : ChthollyTree T} (h : TreeInv t)
    (v : T) :
    TreeInv (t.push v) ∧ (t.push v).len = t.len + 1 ∧ (t.push v).iter = t.iter ++ [v] := by
  by_cases hnil : t.inner = []
  · have hlen : t.len = 0 := by
      have h' := h
      unfold TreeInv at h'
      rw [hnil] at h'
      exact h'.symm
    have hpush : t.push v = ⟨[(0, 1, v)], 1⟩ := by
      unfold ChthollyTree.push
      rw [hnil, hlen]
      simp [insertRun]
    rw [hpush]
    refine ⟨⟨rfl, by omega, rfl⟩, by simp [hlen], ?_⟩
    unfold ChthollyTree.iter
    rw [hnil]
    simp [elems]
  · obtain ⟨F, s, e, w, hF, hPF, hse, hestop⟩ := last_decomp h hnil
    have hlast : t.inner.getLast? = some (s, e, w) := by
      rw [hF]; exact List.getLast?_concat _
    by_cases hv : w = v
    · have hpush : t.push v = ⟨bumpLast t.inner, t.len + 1⟩ := by
        unfold ChthollyTree.push
        rw [hlast]
        simp [hv]
      have hbump : bumpLast t.inner = F ++ [(s, e + 1, w)] := by
        rw [hF, bumpLast_concat]
      rw [hpush]
      refine ⟨?_, rfl, ?_⟩
      · show isPartition 0 (t.len + 1) (bumpLast t.inner)
        rw [hbump]
        refine isPartition_append hPF ⟨rfl, by omega, ?_⟩
        show e + 1 = t.len + 1
        omega
      · show elems (bumpLast t.inner) = elems t.inner ++ [v]
        rw [hbump, hF, elems_append, elems_append]
        simp only [elems, List.append_nil]
        rw [show e + 1 - s = (e - s) + 1 by omega, List.replicate_succ']
        simp [hv]
    · have hpush : t.push v = ⟨insertRun t.len (t.len + 1) v t.inner, t.len + 1⟩ := by
        unfold ChthollyTree.push
        rw [hlast]
        simp [hv]
      have hins : insertRun t.len (t.len + 1) v t.inner =
          t.inner ++ [(t.len, t.len + 1, v)] := insertRun_concat h
      rw [hpush]
      refine ⟨?_, rfl, ?_⟩
      · show isPartition 0 (t.len + 1) _
        rw [hins]
        exact isPartition_append h ⟨rfl, by omega, rfl⟩
      · show elems _ = elems t.inner ++ [v]
        rw [hins, elems_append]
        simp [elems]

theorem foldl_push_spec {T : Type} [DecidableEq T] :
    ∀ (xs : List T) (t : ChthollyTree T), TreeInv t →
      TreeInv (xs.foldl ChthollyTree.push t) ∧
        (xs.foldl ChthollyTree.push t).len = t.len + xs.length ∧
        (xs.foldl ChthollyTree.push t).iter = t.iter ++ xs
  | [], t, h => ⟨h, by simp, by simp⟩
  | x :: xs, t, h => by
    obtain ⟨h1, h2, h3⟩ := push_spec h x
    obtain ⟨g1, g2, g3⟩ := foldl_push_spec xs (t.push x) h1
    rw [List.foldl_cons]
    refine ⟨g1, by rw [g2, h2]; simp; omega, ?_⟩
    rw [g3, h3]
    simp

theorem TreeInv_new {T : Type} : TreeInv (ChthollyTree.new : ChthollyTree T) := rfl

theorem TreeInv_from_iter {T : Type} [DecidableEq T] (xs : List T) :
    TreeInv (ChthollyTree.from_iter xs) :=
  (foldl_push_spec xs ChthollyTree.new TreeInv_new).1

theorem from_iter_len {T : Type} [DecidableEq T] (xs : List T) :
    (ChthollyTree.from_iter xs).len = xs.length := by
  have := (foldl_push_spec xs ChthollyTree.new TreeInv_new).2.1
  simpa [ChthollyTree.from_iter, ChthollyTree.new] using this

theorem from_iter_iter {T : Type} [DecidableEq T] (xs : List T) :
    (ChthollyTree.from_iter xs).iter = xs := by
  have := (foldl_push_spec xs ChthollyTree.new TreeInv_new).2.2
  simpa [ChthollyTree.from_iter, ChthollyTree.new, ChthollyTree.iter, elems] using this

/- List take/drop helpers. -/

theorem take_append_len {α : Type} : ∀ (A B : List α), (A ++ B).take A.length = A
  | [], _ => rfl
  | a :: A', B => by simp [take_append_len A' B]

theorem drop_append_len {α : Type} : ∀ (A B : List α), (A ++ B).drop A.length = B
  | [], _ => rfl
  | a :: A', B => by simp [drop_append_len A' B]

/- Consequences of `split_range` for the whole tree. -/

theorem split_range_TreeInv {T : Type} {t : ChthollyTree T} {rg : RangeArg}
    {l r : Nat} {t' : ChthollyTree T} (h : TreeInv t)
    (hsr : t.split_range rg = some ((l, r), t')) : TreeInv t' := by
  obtain ⟨_, _, hlen, X, Y, Z, hinner, hX, hY, hZ, _⟩ := split_range_parts h hsr
  unfold TreeInv
  rw [hlen, hinner]
  exact isPartition_append hX (isPartition_append hY hZ)

theorem split_range_iter {T : Type} {t : ChthollyTree T} {rg : RangeArg}
    {l r : Nat} {t' : ChthollyTree T} (h : TreeInv t)
    (hsr : t.split_range rg = some ((l, r), t')) : t'.iter = t.iter := by
  obtain ⟨_, _, _, X, Y, Z, hinner, _, _, _, hel⟩ := split_range_parts h hsr
  unfold ChthollyTree.iter
  rw [hinner, elems_append, elems_append, hel]

/-- Full description of a successful `assign`: the runs in `(l, r)` are gone,
one run `[l, r)` with the new value stands in their place, and the element
sequence outside `[l, r)` is untouched. -/
theorem assign_parts {T : Type} {t : ChthollyTree T} {rg : RangeArg} {v : T}
    {l r : Nat} {t' : ChthollyTree T} (h : TreeInv t)
    (hsr : t.split_range rg = some ((l, r), t')) :
    l < r ∧ r ≤ t.len ∧ (t.assign v rg).len = t.len ∧
      ∃ X Z, (t.assign v rg).inner = X ++ (l, r, v) :: Z ∧ isPartition 0 l X ∧
        isPartition r t.len Z ∧ elems X = (elems t.inner).take l ∧
        elems Z = (elems t.inner).drop r := by
  obtain ⟨hlr, hrle, hlen, X, Y, Z, hinner, hX, hY, hZ, hel⟩ := split_range_parts h hsr
  have hassign : t.assign v rg =
      ⟨insertRun l r v (t'.inner.filter fun ru => decide (¬(l + 1 ≤ ru.1 ∧ ru.1 < r))),
        t'.len⟩ := by
    unfold ChthollyTree.assign
    rw [hsr]
  have hlX : (elems X).length = l := by
    have := elems_length hX; omega
  have hlY : (elems Y).length = r - l := by
    have := elems_length hY; omega
  have htake : (elems t.inner).take l = elems X := by
    rw [← hel, ← hlX, take_append_len]
  have hdrop : (elems t.inner).drop r = elems Z := by
    have hsplit : elems t.inner = (elems X ++ elems Y) ++ elems Z := by
      rw [← hel, List.append_assoc]
    rw [hsplit, show r = (elems X ++ elems Y).length by simp [hlX, hlY]; omega,
      drop_append_len]
  cases Y with
  | nil => simp only [isPartition] at hY; omega
  | cons y Y' =>
    obtain ⟨sy, ey, vy⟩ := y
    obtain ⟨hsy, hly, hY'⟩ := hY
    rw [hsy] at hinner
    have hfilter : t'.inner.filter (fun ru => decide (¬(l + 1 ≤ ru.1 ∧ ru.1 < r))) =
        X ++ (l, ey, vy) :: Z := by
      have hpos : ((fun (ru : Run T) => decide (¬(l + 1 ≤ ru.1 ∧ ru.1 < r))) (l, ey, vy)) =
          true := decide_eq_true (show ¬(l + 1 ≤ l ∧ l < r) by omega)
      rw [hinner, List.filter_append, List.cons_append,
        filter_cons_true (fun ru => decide (¬(l + 1 ≤ ru.1 ∧ ru.1 < r))) (l, ey, vy)
          (Y' ++ Z) hpos,
        List.filter_append]
      rw [filter_all_true (fun ru hru => by
        have := isPartition_key_lt hX ru hru
        simp only [decide_eq_true_eq]
        omega)]
      rw [filter_all_false (fun ru hru => by
        have h1 := isPartition_key_ge hY' ru hru
        have h2 := isPartition_key_lt hY' ru hru
        simp only [decide_eq_false_iff_not, Decidable.not_not]
        omega)]
      rw [filter_all_true (fun ru hru => by
        have := isPartition_key_ge hZ ru hru
        simp only [decide_eq_true_eq]
        omega)]
      rw [List.nil_append]
    have hins : insertRun l r v (X ++ (l, ey, vy) :: Z) = X ++ (l, r, v) :: Z := by
      rw [insertRun_append (fun ru hru => isPartition_key_lt hX ru hru), insertRun_cons_eq]
    refine ⟨hlr, hrle, by rw [hassign]; exact hlen, X, Z, ?_, hX, hZ, htake.symm, hdrop.symm⟩
    rw [hassign]
    show insertRun l r v _ = _
    rw [hfilter, hins]

theorem assign_TreeInv {T : Type} {t : ChthollyTree T} {v : T} {rg : RangeArg}
    (h : TreeInv t) : TreeInv (t.assign v rg) := by
  cases hsr : t.split_range rg with
  | none =>
    have : t.assign v rg = t := by unfold ChthollyTree.assign; rw [hsr]
    rw [this]; exact h
  | some p =>
    obtain ⟨⟨l, r⟩, t'⟩ := p
    obtain ⟨hlr, hrle, hlen, X, Z, hinner, hX, hZ, _, _⟩ := assign_parts h hsr
    unfold TreeInv
    rw [hlen, hinner]
    exact isPartition_append hX ⟨rfl, hlr, hZ⟩

/- `map`, `map_range` and `fold_range` preserve the structure. -/

theorem isPartition_map {T : Type} {g : Run T → Run T}
    (hg : ∀ ru, (g ru).1 = ru.1 ∧ (g ru).2.1 = ru.2.1) :
    ∀ {rs : List (Run T)} {pos stop : Nat}, isPartition pos stop rs →
      isPartition pos stop (rs.map g)
  | [], _, _, h => h
  | ru :: rest, pos, stop, h => by
    obtain ⟨hs, hlt, hrest⟩ := h
    refine ⟨?_, ?_, ?_⟩
    · rw [(hg ru).1]; exact hs
    · rw [(hg ru).2]; exact hlt
    · rw [(hg ru).2]; exact isPartition_map hg hrest

theorem map_TreeInv {T : Type} {t : ChthollyTree T} {f : T → T} (h : TreeInv t) :
    TreeInv (t.map f) :=
  @isPartition_map T (fun ru => (ru.1, ru.2.1, f ru.2.2)) (fun _ => ⟨rfl, rfl⟩)
    t.inner 0 t.len h

theorem map_range_TreeInv {T : Type} {t : ChthollyTree T} {f : T → T} {rg : RangeArg}
    (h : TreeInv t) : TreeInv (t.map_range f rg) := by
  unfold ChthollyTree.map_range
  cases hsr : t.split_range rg with
  | none => exact h
  | some p =>
    obtain ⟨⟨l, r⟩, t'⟩ := p
    have ht' := split_range_TreeInv h hsr
    refine @isPartition_map T
      (fun ru => if l ≤ ru.1 ∧ ru.1 < r then (ru.1, ru.2.1, f ru.2.2) else ru)
      (fun ru => ?_) t'.inner 0 t'.len ht'
    by_cases hc : l ≤ ru.1 ∧ ru.1 < r <;> simp [hc]

theorem fold_range_tree {T Acc : Type} {t : ChthollyTree T} {init : Acc}
    {f : Acc → Nat → T → Acc} {rg : RangeArg} (h : TreeInv t) :
    TreeInv ((t.fold_range init f rg).2) ∧ ((t.fold_range init f rg).2).len = t.len ∧
      ((t.fold_range init f rg).2).iter = t.iter := by
  unfold ChthollyTree.fold_range
  cases hsr : t.split_range rg with
  | none => exact ⟨h, rfl, rfl⟩
  | some p =>
    obtain ⟨⟨l, r⟩, t'⟩ := p
    have hparts := split_range_parts h hsr
    exact ⟨split_range_TreeInv h hsr, hparts.2.2.1, split_range_iter h hsr⟩

/- Summation. -/

theorem foldl_sum_eq {rs : List (Run Int)} :
    ∀ {acc : Int},
      rs.foldl (fun acc ru => acc + ((ru.2.1 - ru.1 : Nat) : Int) * ru.2.2) acc =
        acc + (elems rs).sum := by
  induction rs with
  | nil => intro acc; simp [elems]
  | cons ru rest ih =>
    intro acc
    obtain ⟨s, e, v⟩ := ru
    simp only [List.foldl_cons, elems, List.sum_append, List.sum_replicate, ih]
    rw [nsmul_eq_mul]
    ring

theorem sum_eq_iter_sum (t : ChthollyTree Int) : t.sum = t.iter.sum := by
  unfold ChthollyTree.sum ChthollyTree.fold ChthollyTree.iter
  rw [foldl_sum_eq]
  simp

/- Unique containing run, and the last run's end. -/

theorem isPartition_unique_run {T : Type} :
    ∀ {rs : List (Run T)} {pos stop : Nat}, isPartition pos stop rs →
      ∀ i, pos ≤ i → i < stop →
        ∃! ru, ru ∈ rs ∧ ru.1 ≤ i ∧ i < ru.2.1
  | [], pos, stop, h, i, hpi, his => by simp only [isPartition] at h; omega
  | (s, e, v) :: rest, pos, stop, h, i, hpi, his => by
    obtain ⟨hs, hlt, hrest⟩ := h
    by_cases hie : i < e
    · refine ⟨(s, e, v), ⟨List.mem_cons_self _ _, (by omega : s ≤ i), hie⟩, ?_⟩
      rintro ru ⟨hmem, hle, hlt'⟩
      rcases List.mem_cons.mp hmem with h1 | h1
      · exact h1
      · exfalso
        have := isPartition_key_ge hrest ru h1
        omega
    · obtain ⟨ru, ⟨hmem, hle, hlt'⟩, huniq⟩ :=
        isPartition_unique_run hrest i (by omega) his
      refine ⟨ru, ⟨List.mem_cons_of_mem _ hmem, hle, hlt'⟩, ?_⟩
      rintro ru' ⟨hmem', hle', hlt''⟩
      rcases List.mem_cons.mp hmem' with h1 | h1
      · exfalso
        subst h1
        have hb : i < e := hlt''
        omega
      · exact huniq ru' ⟨h1, hle', hlt''⟩

theorem TreeInv_getLast {T : Type} {t : ChthollyTree T} (h : TreeInv t) :
    ∀ ru, t.inner.getLast? = some ru → ru.2.1 = t.len := by
  intro ru hlast
  have hne : t.inner ≠ [] := by
    intro hnil
    rw [hnil] at hlast
    simp at hlast
  obtain ⟨F, s, e, w, hF, _, _, hestop⟩ := last_decomp h hne
  rw [hF, List.getLast?_concat] at hlast
  simp only [Option.some.injEq] at hlast
  rw [← hlast]
  exact hestop

/- `split` at a boundary is a no-op. -/

theorem split_boundary_noop {T : Type} {t : ChthollyTree T} {k : Nat} (h : TreeInv t)
    (hk : k < t.len) (hb : isBoundary t k) : t.split k = t := by
  by_cases hk0 : k = 0
  · subst hk0
    unfold ChthollyTree.split
    simp
  · rcases hb with hb0 | ⟨ru, hmem, hkey⟩
    · exact absurd hb0 hk0
    obtain ⟨A, s, e, v, B, hdecomp, hlook, hA, hsk, hke, hB⟩ :=
      lookupLE_decomp h (Nat.zero_le k) hk
    have hAkeys : ∀ ru ∈ A, ru.1 < s := isPartition_key_lt hA
    have hsk_eq : s = k := by
      by_contra hne
      have hslt : s < k := Nat.lt_of_le_of_ne hsk hne
      rw [hdecomp] at hmem
      rcases List.mem_append.mp hmem with hmA | hmB
      · have := hAkeys ru hmA
        omega
      · rcases List.mem_cons.mp hmB with hmh | hmB'
        · rw [hmh] at hkey
          simp at hkey
          omega
        · have := isPartition_key_ge hB ru hmB'
          omega
    subst hsk_eq
    have hupd : updateEnd s s t.inner = A ++ (s, s, v) :: B := by
      rw [hdecomp, updateEnd_append (fun a ha => Nat.ne_of_lt (hAkeys a ha)),
        updateEnd_cons_eq rfl]
    have hins : insertRun s e v (A ++ (s, s, v) :: B) = A ++ (s, e, v) :: B := by
      rw [insertRun_append hAkeys, insertRun_cons_eq]
    have hsplitInner : splitInner s t.inner = t.inner := by
      simp only [splitInner, hlook]
      rw [if_pos (show s ≠ e from Nat.ne_of_lt hke), hupd, hins, ← hdecomp]
    cases t with
    | mk inner len =>
      unfold ChthollyTree.split
      rw [if_neg hk0]
      simp only at hsplitInner
      rw [hsplitInner]

/- Invariant preservation along arbitrary operation sequences. -/

theorem applyOp_TreeInv {T : Type} [DecidableEq T] {t : ChthollyTree T}
    (h : TreeInv t) : ∀ op : Op T, TreeInv (applyOp t op)
  | Op.pushOp v => (push_spec h v).1
  | Op.splitOp k => by
    show TreeInv (if k < t.len then t.split k else t)
    split
    · exact split_TreeInv h (Nat.le_of_lt (by assumption))
    · exact h
  | Op.assignOp v rg => assign_TreeInv h
  | Op.mapOp f => map_TreeInv h
  | Op.mapRangeOp f rg => map_range_TreeInv h
  | Op.foldOp => h
  | Op.foldRangeOp rg => (fold_range_tree h).1

theorem foldl_applyOp_TreeInv {T : Type} [DecidableEq T] :
    ∀ (ops : List (Op T)) (t : ChthollyTree T), TreeInv t →
      TreeInv (ops.foldl applyOp t)
  | [], _, h => h
  | op :: ops, t, h => foldl_applyOp_TreeInv ops _ (applyOp_TreeInv h op)

theorem runOps_TreeInv {T : Type} [DecidableEq T] (ops : List (Op T)) :
    TreeInv (runOps ops) :=
  foldl_applyOp_TreeInv ops _ TreeInv_new

/- The claims. -/

/-- C1: for every element sequence and every non-empty in-bounds half-open
range `[l, r)`, `assign(v, l..r)` sets exactly the elements at indices in
`[l, r)` to `v` and leaves all others unchanged; in particular on
`E = [1,1,2,3,4,4,4,5,7,8]`, `assign(10, 3..6)` then iteration yields
`[1,1,2,10,10,10,4,5,7,8]`. -/
theorem assign_range_correct :
    (∀ (T : Type) [inst : DecidableEq T] (E : List T) (v : T) (l r : Nat),
      l < r → r ≤ E.length →
        ((ChthollyTree.from_iter E).assign v
            ⟨Bound.included l, Bound.excluded r⟩).iter =
          E.take l ++ List.replicate (r - l) v ++ E.drop r) ∧
    ((ChthollyTree.from_iter ([1, 1, 2, 3, 4, 4, 4, 5, 7, 8] : List Int)).assign 10
        ⟨Bound.included 3, Bound.excluded 6⟩).iter =
      [1, 1, 2, 10, 10, 10, 4, 5, 7, 8] := by
  constructor
  · intro T inst E v l r hlr hr
    have hInv := TreeInv_from_iter E
    have hlen := from_iter_len E
    have hiter := from_iter_iter E
    have hb : boundsOf (ChthollyTree.from_iter E).len
        ⟨Bound.included l, Bound.excluded r⟩ = some (l, r) := rfl
    have hcond : ¬(l ≥ r ∨ r > (ChthollyTree.from_iter E).len) := by
      rw [hlen]
      omega
    have hsr : (ChthollyTree.from_iter E).split_range
        ⟨Bound.included l, Bound.excluded r⟩ =
        some ((l, r), ((ChthollyTree.from_iter E).split l).split r) := by
      unfold ChthollyTree.split_range
      rw [hb]
      show (if l ≥ r ∨ r > (ChthollyTree.from_iter E).len then none
        else some ((l, r), ((ChthollyTree.from_iter E).split l).split r)) = _
      rw [if_neg hcond]
    obtain ⟨_, _, _, X, Z, hinner, hX, hZ, htake, hdrop⟩ := assign_parts hInv hsr
    show elems _ = _
    rw [hinner, elems_append]
    show elems X ++ (List.replicate (r - l) v ++ elems Z) = _
    rw [htake, hdrop]
    have hEiter : elems (ChthollyTree.from_iter E).inner = E := hiter
    rw [hEiter, List.append_assoc]
  · decide

/-- C1 witness. -/
theorem assign_range_correct_witness :
    ((ChthollyTree.from_iter ([5, 5, 7] : List Int)).assign 9
        ⟨Bound.included 0, Bound.excluded 2⟩).iter =
      ([5, 5, 7] : List Int).take 0 ++ List.replicate (2 - 0) 9 ++
        ([5, 5, 7] : List Int).drop 2 :=
  assign_range_correct.1 Int [5, 5, 7] 9 0 2 (by omega) (by simp)

/-- C2: the claim says `assign(v, a..=b)` covers indices `a` through `b`
inclusive; the code converts the inclusive end bound `b` into `b - 1`
(`checked_sub`) instead of `b + 1`, so `assign(10, 3..=5)` on
`E = [1,1,2,3,4,4,4,5,7,8]` overwrites only index 3 (the range `[3, 4)`),
not indices 3..5. -/
theorem assign_inclusive_end_bug :
    ((ChthollyTree.from_iter ([1, 1, 2, 3, 4, 4, 4, 5, 7, 8] : List Int)).assign 10
        ⟨Bound.included 3, Bound.included 5⟩).iter = [1, 1, 2, 10, 4, 4, 4, 5, 7, 8] ∧
    ((ChthollyTree.from_iter ([1, 1, 2, 3, 4, 4, 4, 5, 7, 8] : List Int)).assign 10
        ⟨Bound.included 3, Bound.included 5⟩).iter ≠ [1, 1, 2, 10, 10, 10, 4, 5, 7, 8] := by
  decide

/-- C3: the claim says out-of-range `split(at)` (`at ≥ len`) is rejected
explicitly rather than proceeding.  The only guard in the code is
`debug_assert!`, which release builds compile out; the release-mode function
then proceeds: on the valid tree built from `[1, 2, 3]` (`len = 3`),
`split 5` mutates the run map and leaves it no longer a partition of
`[0, len)`. -/
theorem split_out_of_range_corrupts :
    TreeInv (ChthollyTree.from_iter ([1, 2, 3] : List Int)) ∧
    ¬ TreeInv ((ChthollyTree.from_iter ([1, 2, 3] : List Int)).split 5) ∧
    ((ChthollyTree.from_iter ([1, 2, 3] : List Int)).split 5).inner ≠
      (ChthollyTree.from_iter ([1, 2, 3] : List Int)).inner := by
  decide

/-- C4: after any finite sequence of public operations starting from the empty
tree, the runs partition `[0, len)` exactly: every index below `len` lies in
exactly one run, an empty run list forces `len = 0`, and the last run ends at
`len`. -/
theorem runOps_partition {T : Type} [DecidableEq T] (ops : List (Op T)) :
    TreeInv (runOps ops) ∧
      (∀ i, i < (runOps ops).len →
        ∃! ru, ru ∈ (runOps ops).inner ∧ ru.1 ≤ i ∧ i < ru.2.1) ∧
      ((runOps ops).inner = [] → (runOps ops).len = 0) ∧
      (∀ ru, (runOps ops).inner.getLast? = some ru → ru.2.1 = (runOps ops).len) := by
  have hInv : TreeInv (runOps ops) := runOps_TreeInv ops
  refine ⟨hInv, fun i hi => isPartition_unique_run hInv i (Nat.zero_le i) hi, ?_,
    TreeInv_getLast hInv⟩
  intro hnil
  have h' := hInv
  unfold TreeInv at h'
  rw [hnil] at h'
  exact h'.symm

/-- C4 witness. -/
theorem runOps_partition_witness :
    TreeInv (runOps [Op.pushOp (5 : Int), Op.pushOp 5,
      Op.assignOp 7 ⟨Bound.included 0, Bound.excluded 1⟩, Op.splitOp 1]) :=
  (runOps_partition _).1

/-- C5: iterating the tree bulk-built from any element list `E` reproduces `E`
exactly (same order, same length), e.g. for
`E = [-1,2,2,3,0,0,0,-4,-4,10,10,12]`. -/
theorem from_iter_roundtrip :
    (∀ (T : Type) [inst : DecidableEq T] (E : List T),
      (ChthollyTree.from_iter E).iter = E ∧ (ChthollyTree.from_iter E).len = E.length) ∧
    (ChthollyTree.from_iter ([-1, 2, 2, 3, 0, 0, 0, -4, -4, 10, 10, 12] : List Int)).iter =
      [-1, 2, 2, 3, 0, 0, 0, -4, -4, 10, 10, 12] := by
  refine ⟨fun T inst E => ⟨from_iter_iter E, from_iter_len E⟩, ?_⟩
  decide

/-- C6: `sum()` equals the plain sum of the expanded element sequence, and
`range_sum` over a non-empty in-bounds `[l, r)` equals the sum of the
elements at indices `l` through `r - 1`. -/
theorem sum_correct :
    (∀ E : List Int, (ChthollyTree.from_iter E).sum = E.sum) ∧
    (∀ (E : List Int) (l r : Nat), l < r → r ≤ E.length →
      ((ChthollyTree.from_iter E).range_sum ⟨Bound.included l, Bound.excluded r⟩).1 =
        ((E.drop l).take (r - l)).sum) := by
  constructor
  · intro E
    rw [sum_eq_iter_sum, from_iter_iter]
  · intro E l r hlr hr
    have hInv := TreeInv_from_iter E
    have hlen := from_iter_len E
    have hiterE : elems (ChthollyTree.from_iter E).inner = E := from_iter_iter E
    have hb : boundsOf (ChthollyTree.from_iter E).len
        ⟨Bound.included l, Bound.excluded r⟩ = some (l, r) := rfl
    have hcond : ¬(l ≥ r ∨ r > (ChthollyTree.from_iter E).len) := by
      rw [hlen]
      omega
    have hsr : (ChthollyTree.from_iter E).split_range
        ⟨Bound.included l, Bound.excluded r⟩ =
        some ((l, r), ((ChthollyTree.from_iter E).split l).split r) := by
      unfold ChthollyTree.split_range
      rw [hb]
      show (if l ≥ r ∨ r > (ChthollyTree.from_iter E).len then none
        else some ((l, r), ((ChthollyTree.from_iter E).split l).split r)) = _
      rw [if_neg hcond]
    obtain ⟨_, _, _, X, Y, Z, hinner, hX, hY, hZ, hel⟩ := split_range_parts hInv hsr
    have hlX : (elems X).length = l := by
      have := elems_length hX; omega
    have hlY : (elems Y).length = r - l := by
      have := elems_length hY; omega
    have hval : ((ChthollyTree.from_iter E).range_sum
        ⟨Bound.included l, Bound.excluded r⟩).1 =
        ((((ChthollyTree.from_iter E).split l).split r).inner.filter
            (fun ru => decide (l ≤ ru.1 ∧ ru.1 < r))).foldl
          (fun acc ru => acc + ((ru.2.1 - ru.1 : Nat) : Int) * ru.2.2) 0 := by
      unfold ChthollyTree.range_sum ChthollyTree.fold_range
      rw [hsr]
    have hfilter : (((ChthollyTree.from_iter E).split l).split r).inner.filter
        (fun ru => decide (l ≤ ru.1 ∧ ru.1 < r)) = Y := by
      rw [hinner, List.filter_append, List.filter_append]
      rw [filter_all_false (fun ru hru => by
        have := isPartition_key_lt hX ru hru
        simp only [decide_eq_false_iff_not]
        omega)]
      rw [filter_all_true (fun ru hru => by
        have h1 := isPartition_key_ge hY ru hru
        have h2 := isPartition_key_lt hY ru hru
        simp only [decide_eq_true_eq]
        omega)]
      rw [filter_all_false (fun ru hru => by
        have := isPartition_key_ge hZ ru hru
        simp only [decide_eq_false_iff_not]
        omega)]
      simp
    have hdropY : E.drop l = elems Y ++ elems Z := by
      rw [← hiterE, ← hel, ← hlX, drop_append_len]
    have hYtake : (E.drop l).take (r - l) = elems Y := by
      rw [hdropY, ← hlY, take_append_len]
    rw [hval, hfilter, foldl_sum_eq, hYtake]
    simp

/-- C6 witness (the spec's example: `sum_over_range([3,6))` on `E` is
`3 + 4 + 4 = 11`). -/
theorem sum_correct_witness :
    ((ChthollyTree.from_iter ([1, 1, 2, 3, 4, 4, 4, 5, 7, 8] : List Int)).range_sum
        ⟨Bound.included 3, Bound.excluded 6⟩).1 =
      ((([1, 1, 2, 3, 4, 4, 4, 5, 7, 8] : List Int).drop 3).take (6 - 3)).sum :=
  sum_correct.2 [1, 1, 2, 3, 4, 4, 4, 5, 7, 8] 3 6 (by omega) (by simp)

/-- C7: a range whose computed bounds are degenerate (`l ≥ r`) or out of
bounds (`r > len`) makes `assign` leave the tree unchanged and `fold_range`
return the initial accumulator with the tree unchanged; no error is
signalled (both functions are total here). -/
theorem empty_range_noop {T Acc : Type} (t : ChthollyTree T) (v : T) (init : Acc)
    (f : Acc → Nat → T → Acc) (rg : RangeArg) (l r : Nat)
    (hb : boundsOf t.len rg = some (l, r)) (hdeg : r ≤ l ∨ t.len < r) :
    t.assign v rg = t ∧ t.fold_range init f rg = (init, t) := by
  have hsr : t.split_range rg = none := by
    unfold ChthollyTree.split_range
    rw [hb]
    show (if l ≥ r ∨ r > t.len then none else _) = _
    rw [if_pos (by omega)]
  constructor
  · unfold ChthollyTree.assign
    rw [hsr]
  · unfold ChthollyTree.fold_range
    rw [hsr]

/-- C7 witness (empty range `1..1` on a tree of length 2). -/
theorem empty_range_noop_witness :
    (ChthollyTree.from_iter ([1, 2] : List Int)).assign 9
        ⟨Bound.included 1, Bound.excluded 1⟩ = ChthollyTree.from_iter ([1, 2] : List Int) ∧
      (ChthollyTree.from_iter ([1, 2] : List Int)).fold_range (0 : Int)
          (fun acc rep val => acc + (rep : Int) * val)
          ⟨Bound.included 1, Bound.excluded 1⟩ =
        (0, ChthollyTree.from_iter ([1, 2] : List Int)) :=
  empty_range_noop _ 9 0 _ _ 1 1 rfl (by omega)

/-- C8: on a well-formed tree, `split(k)` for a valid `k` is idempotent —
splitting twice gives exactly the same run list (boundaries and values) as
splitting once — and if `k` is already a run boundary (including `k = 0`) a
single `split` changes nothing at all. -/
theorem split_idempotent {T : Type} (t : ChthollyTree T) (k : Nat) (h : TreeInv t)
    (hk : k < t.len) :
    (t.split k).split k = t.split k ∧ (isBoundary t k → t.split k = t) := by
  have h1 : TreeInv (t.split k) := split_TreeInv h (Nat.le_of_lt hk)
  have hk1 : k < (t.split k).len := by
    rw [split_len]
    exact hk
  have hbnd : isBoundary (t.split k) k := by
    obtain ⟨X, Y, hXY, hX, hY, _⟩ := split_parts h (Nat.le_of_lt hk)
    cases Y with
    | nil =>
      exfalso
      have : k = t.len := hY
      omega
    | cons y Y' =>
      right
      exact ⟨y, by rw [hXY]; exact List.mem_append_right _ (List.mem_cons_self _ _), hY.1⟩
  exact ⟨split_boundary_noop h1 hk1 hbnd, fun hb0 => split_boundary_noop h hk hb0⟩

/-- C8 witness (`k = 1` on the tree of `[1, 2, 2]`). -/
theorem split_idempotent_witness :
    (((ChthollyTree.from_iter ([1, 2, 2] : List Int)).split 1).split 1 =
        (ChthollyTree.from_iter ([1, 2, 2] : List Int)).split 1) ∧
      (isBoundary (ChthollyTree.from_iter ([1, 2, 2] : List Int)) 1 →
        (ChthollyTree.from_iter ([1, 2, 2] : List Int)).split 1 =
          ChthollyTree.from_iter ([1, 2, 2] : List Int)) :=
  split_idempotent _ 1 (by decide) (by decide)

/-- C9: on a well-formed tree, `split` at a valid index changes neither `len`
nor the element sequence produced by `iter` — it only refines run
boundaries. -/
theorem split_frame {T : Type} (t : ChthollyTree T) (k : Nat) (h : TreeInv t)
    (hk : k < t.len) : (t.split k).len = t.len ∧ (t.split k).iter = t.iter :=
  ⟨split_len t k, split_iter h (Nat.le_of_lt hk)⟩

/-- C9 witness (`k = 2` inside the single run of `[4, 4, 4]`). -/
theorem split_frame_witness :
    ((ChthollyTree.from_iter ([4, 4, 4] : List Int)).split 2).len =
        (ChthollyTree.from_iter ([4, 4, 4] : List Int)).len ∧
      ((ChthollyTree.from_iter ([4, 4, 4] : List Int)).split 2).iter =
        (ChthollyTree.from_iter ([4, 4, 4] : List Int)).iter :=
  split_frame _ 2 (by decide) (by decide)

/-- C10: `fold_range` and `range_sum`, though they may materialize new run
boundaries through `split_range`, leave `len` and the element sequence of the
tree unchanged for every input range. -/
theorem fold_range_frame :
    (∀ (T Acc : Type) (t : ChthollyTree T) (init : Acc) (f : Acc → Nat → T → Acc)
        (rg : RangeArg), TreeInv t →
      ((t.fold_range init f rg).2).len = t.len ∧
        ((t.fold_range init f rg).2).iter = t.iter) ∧
    (∀ (t : ChthollyTree Int) (rg : RangeArg), TreeInv t →
      ((t.range_sum rg).2).len = t.len ∧ ((t.range_sum rg).2).iter = t.iter) := by
  constructor
  · intro T Acc t init f rg h
    exact ⟨(fold_range_tree h).2.1, (fold_range_tree h).2.2⟩
  · intro t rg h
    exact ⟨(fold_range_tree h).2.1, (fold_range_tree h).2.2⟩

/-- C10 witness (`range_sum` over `0..2` on the tree of `[3, 5]`). -/
theorem fold_range_frame_witness :
    (((ChthollyTree.from_iter ([3, 5] : List Int)).range_sum
          ⟨Bound.included 0, Bound.excluded 2⟩).2).len =
        (ChthollyTree.from_iter ([3, 5] : List Int)).len ∧
      (((ChthollyTree.from_iter ([3, 5] : List Int)).range_sum
          ⟨Bound.included 0, Bound.excluded 2⟩).2).iter =
        (ChthollyTree.from_iter ([3, 5] : List Int)).iter :=
  fold_range_frame.2 _ _ (by decide)
